import Mathlib

/-!
Verification development for the document-research retrieval backend.

Python strings are modelled as `List Char`; floating-point numbers are
modelled as real numbers; the external embedding model (`model.encode`),
the external LLM call, and the FAISS search are modelled as injected
function parameters, matching the narrow interfaces the code consumes.
Every definition below is a direct shallow embedding of a function of the
repository (file and function named in its doc comment).
-/

namespace DocChat

/-! ### Basic text utilities (Python string operations) -/

/-- Model of Python whitespace used by `str.strip` and `str.split`. -/
def isWS (c : Char) : Bool := c.isWhitespace

/-- Model of Python `s.strip()`: drop whitespace at both ends. -/
def trimText (l : List Char) : List Char :=
  ((l.dropWhile isWS).reverse.dropWhile isWS).reverse

/-- Helper for `s.split("\n\n")`: returns the first piece and remaining pieces,
splitting on leftmost non-overlapping occurrences of two newline characters. -/
def splitNNCore : List Char → List Char × List (List Char)
  | [] => ([], [])
  | '\n' :: '\n' :: rest =>
      let r := splitNNCore rest
      ([], r.1 :: r.2)
  | c :: rest =>
      let r := splitNNCore rest
      (c :: r.1, r.2)

/-- Model of Python `s.split("\n\n")` as used by `chunk_text` in chunker.py. -/
def splitNN (xs : List Char) : List (List Char) :=
  let r := splitNNCore xs
  r.1 :: r.2

/-- Helper for maximal runs of characters satisfying `p`; `cur` is the
current run accumulated in reverse. -/
def runsOfAux (p : Char → Bool) (cur : List Char) : List Char → List (List Char)
  | [] => if cur.isEmpty then [] else [cur.reverse]
  | c :: rest =>
      if p c then runsOfAux p (c :: cur) rest
      else if cur.isEmpty then runsOfAux p [] rest
      else cur.reverse :: runsOfAux p [] rest

/-- Maximal non-empty runs of characters satisfying `p`. -/
def runsOf (p : Char → Bool) (xs : List Char) : List (List Char) :=
  runsOfAux p [] xs

/-- Model of Python `s.split()` (split on whitespace, dropping empty parts),
used for word counting in chunker.py and for `query.lower().split()` in
query_processor.py. -/
def pyWords (l : List Char) : List (List Char) :=
  runsOf (fun c => !isWS c) l

/-- Model of Python `" ".join(parts)`. -/
def joinSpace (parts : List (List Char)) : List Char :=
  List.intercalate [' '] parts

/-- Is `c` one of the sentence-ending characters of the chunker's
`re.split` pattern. -/
def isSentEnd (c : Char) : Bool := c == '.' || c == '!' || c == '?'

/-- Model of `re.split(r'(?<=[.!?]) +', paragraph)` from chunker.py: a split
point lies after a `.`, `!` or `?` that is followed by one or more space
characters; the spaces are consumed.  `afterSep` records that we are directly
behind a separator (so further spaces are still part of it); `cur` is the
piece accumulated so far, in reverse. -/
def splitSentAux (afterSep : Bool) (cur : List Char) : List Char → List (List Char)
  | [] => [cur.reverse]
  | c :: rest =>
      if afterSep && cur.isEmpty && (c == ' ') then
        splitSentAux true [] rest
      else if isSentEnd c && (rest.head? == some ' ') then
        (cur.reverse ++ [c]) :: splitSentAux true [] rest
      else
        splitSentAux false (c :: cur) rest

/-- Sentence split of a (stripped) paragraph, chunker.py line 23. -/
def splitSent (xs : List Char) : List (List Char) :=
  splitSentAux false [] xs

/-! ### Chunker (src/Backend/app/chunker.py) -/

/-- A chunk dictionary as built by `chunk_text` in chunker.py. -/
structure Chunk where
  chunk_text : List Char
  document : List Char
  page : Nat
  paragraph : Nat
  sentence : Nat
deriving DecidableEq

/-- The inner sentence-accumulation loop of `chunk_text` (chunker.py lines
27-47) for one long paragraph: `i` is the 1-based index of the head
sentence, `total` the number of raw sentence pieces, `buf` the current
chunk's sentences and `len` its cumulative word count. -/
def sentLoop (doc : List Char) (page paraIdx total : Nat) :
    List (List Char) → Nat → List (List Char) → Nat → List Chunk
  | [], _, _, _ => []
  | s :: rest, i, buf, len =>
      let s' := trimText s
      if s' = [] then sentLoop doc page paraIdx total rest (i + 1) buf len
      else
        let buf' := buf ++ [s']
        let len' := len + (pyWords s').length
        if 100 ≤ len' ∨ i = total then
          { chunk_text := joinSpace buf', document := doc, page := page,
            paragraph := paraIdx, sentence := i } ::
            sentLoop doc page paraIdx total rest (i + 1) [] 0
        else
          sentLoop doc page paraIdx total rest (i + 1) buf' len'

/-- The outer paragraph loop of `chunk_text` (chunker.py lines 10-47);
`i` is the 1-based paragraph index. -/
def paraLoop (doc : List Char) (page : Nat) : Nat → List (List Char) → List Chunk
  | _, [] => []
  | i, p :: rest =>
      (if (pyWords p).length < 50 then
        [{ chunk_text := p, document := doc, page := page,
           paragraph := i, sentence := 1 }]
      else
        sentLoop doc page i (splitSent p).length (splitSent p) 1 [] 0)
      ++ paraLoop doc page (i + 1) rest

/-- `chunk_text(extracted_text, doc_name, page_num)` from chunker.py:
split on blank lines, strip each paragraph, drop empty ones, then emit
short paragraphs whole and accumulate long ones sentence-wise. -/
def chunk_text (extracted_text doc_name : List Char) (page_num : Nat) : List Chunk :=
  let paragraphs := ((splitNN extracted_text).map trimText).filter (fun p => decide (p ≠ []))
  paraLoop doc_name page_num 1 paragraphs

/-! ### Query preprocessing and expansion (src/Backend/app/services/query_processor.py) -/

/-- Model of the Python regex class `\w` (ASCII fragment): letters, digits
and underscore. -/
def isWordChar (c : Char) : Bool := c.isAlphanum || c == '_'

/-- The `stop_words` set of `QueryProcessor.__init__` (query_processor.py
lines 28-35); the duplicated entries of the Python set literal collapse. -/
def stop_words : List (List Char) :=
  ["a", "an", "and", "are", "as", "at", "be", "by", "for", "from", "has", "he",
   "in", "is", "it", "its", "of", "on", "that", "the", "to", "was", "were",
   "will", "with", "this", "but", "they", "have", "had", "what", "when",
   "where", "who", "which", "why", "how", "all", "any", "both", "each", "few",
   "more", "most", "other", "some", "such", "than", "too", "very", "can",
   "just", "should", "now"].map String.data

/-- `QueryProcessor.preprocess_query` (query_processor.py lines 45-60):
lowercase, replace characters outside `\w` and `\s` by a space, take the
maximal `\w` runs as tokens, drop stopwords, and rejoin with spaces. -/
def preprocess_query (query : List Char) : List Char :=
  let lowered := query.map Char.toLower
  let subbed := lowered.map (fun c => if isWordChar c || isWS c then c else ' ')
  let tokens := runsOf isWordChar subbed
  let kept := tokens.filter (fun t => decide (t ∉ stop_words))
  joinSpace kept

/-- Helper for Python `s.split(',')`: first piece and remaining pieces. -/
def splitCommaCore : List Char → List Char × List (List Char)
  | [] => ([], [])
  | c :: rest =>
      let r := splitCommaCore rest
      if c == ',' then ([], r.1 :: r.2) else (c :: r.1, r.2)

/-- Model of Python `s.split(',')` used on the LLM response text. -/
def splitComma (xs : List Char) : List (List Char) :=
  let r := splitCommaCore xs
  r.1 :: r.2

/-- The fallback `medical_terms` dictionary of `expand_query`
(query_processor.py lines 103-114), as a lookup returning `[]` on a miss. -/
def fallback_medical (w : List Char) : List (List Char) :=
  if w = "pee".data then ["urine", "urination", "urinary"].map String.data
  else if w = "pink".data then ["reddish", "blood-tinged", "hematuria"].map String.data
  else if w = "blood".data then ["hematuria", "blood-tinged"].map String.data
  else if w = "urine".data then ["pee", "micturition"].map String.data
  else if w = "pain".data then ["discomfort", "ache", "soreness"].map String.data
  else if w = "hurt".data then ["pain", "discomfort", "ache"].map String.data
  else if w = "sick".data then ["ill", "unwell", "diseased"].map String.data
  else if w = "throw up".data then ["vomit", "nausea", "emesis"].map String.data
  else if w = "fever".data then ["pyrexia", "temperature"].map String.data
  else if w = "rash".data then ["eruption", "dermatitis", "skin condition"].map String.data
  else []

/-- `QueryProcessor.expand_query` (query_processor.py lines 62-122).  The
LLM call is external: `llmResponse = some t` models a successful call
returning text `t` (comma-split and stripped, line 89), `none` models the
exception path falling back to the medical-term table.  Both paths place
the original query and its preprocessed form in front, drop empty strings
(`filter(None, ...)`) and deduplicate (`list(set(...))`); Python's set
iteration order is unspecified, so the model keeps first occurrences, and
only order-insensitive properties are proved about the result. -/
def expand_query (llmResponse : Option (List Char)) (query : List Char) :
    List (List Char) :=
  match llmResponse with
  | some t =>
      let variations := (splitComma t).map trimText
      ((query :: preprocess_query query :: variations).filter
        (fun v => decide (v ≠ []))).dedup
  | none =>
      let ws := pyWords (query.map Char.toLower)
      let variations :=
        query :: preprocess_query query :: (ws.map fallback_medical).flatten
      (variations.filter (fun v => decide (v ≠ []))).dedup

/-! ### Relevance scoring (query_processor.py lines 124-139) -/

/-- Dot product of two vectors, truncating to the shorter length. -/
def dotList (q c : List ℝ) : ℝ := (List.zipWith (fun a b => a * b) q c).sum

/-- Cosine similarity as computed by `sentence_transformers.util.cos_sim`. -/
noncomputable def cos_sim (q c : List ℝ) : ℝ :=
  dotList q c / (Real.sqrt (dotList q q) * Real.sqrt (dotList c c))

/-- `QueryProcessor.calculate_relevance_score` (query_processor.py lines
124-139): distance-derived similarity with `max_distance = 2.0`, cosine
similarity, `0.7/0.3` weighted combination, `1.2` boost, clamp to `[0,1]`. -/
noncomputable def calculate_relevance_score
    (query_embedding chunk_embedding : List ℝ) (distance : ℝ) : ℝ :=
  let max_distance : ℝ := 2.0
  let similarity := 1 - distance / max_distance
  let cosine_sim := cos_sim query_embedding chunk_embedding
  let combined_score := 0.7 * cosine_sim + 0.3 * similarity
  max 0.0 (min 1.0 (combined_score * 1.2))

/-! ### Context window (query_processor.py lines 141-149) -/

/-- `QueryProcessor.get_context_window`: slice `chunks[start:end]` with
`start = max(0, i - w)` (natural subtraction is exactly this clamp) and
`end = min(len(chunks), i + w + 1)`, joined with spaces. -/
def get_context_window (chunks : List (List Char)) (match_index : Nat)
    (window_size : Nat) : List Char :=
  let start_idx := match_index - window_size
  let end_idx := min chunks.length (match_index + window_size + 1)
  joinSpace ((chunks.drop start_idx).take (end_idx - start_idx))

/-! ### Search results (query_processor.py lines 151-185, api/query.py) -/

/-- A result dictionary as built by `process_search_results` / the
`SearchResult` response model of api/query.py. -/
structure SearchResult where
  chunk : List Char
  context : List Char
  relevance_score : ℝ
  distance : ℝ
  position : Nat

/-- The comparison used by `sort(key=relevance_score, reverse=True)`. -/
def scoreGE (a b : SearchResult) : Prop :=
  b.relevance_score ≤ a.relevance_score

noncomputable instance : DecidableRel scoreGE :=
  fun a b => Real.decidableLE b.relevance_score a.relevance_score

instance : IsTotal SearchResult scoreGE :=
  ⟨fun a b => le_total b.relevance_score a.relevance_score⟩

instance : IsTrans SearchResult scoreGE :=
  ⟨fun _ _ _ h₁ h₂ => le_trans h₂ h₁⟩

/-- Python's stable `sorted(results, key=relevance_score, reverse=True)`,
modelled by stable insertion sort under `scoreGE`. -/
noncomputable def sortByScoreDesc (rs : List SearchResult) : List SearchResult :=
  List.insertionSort scoreGE rs

/-- `QueryProcessor.process_search_results` (query_processor.py lines
151-185).  `encode` is the injected embedding model.  Note the source zips
the full corpus `chunks` list positionally against the per-hit `distances`
and `indices` arrays, scores `chunks[i]` while attaching `position =
indices[i]`, then sorts by score and truncates to `top_k`. -/
noncomputable def process_search_results (encode : List Char → List ℝ)
    (query : List Char) (chunks : List Chunk) (distances : List ℝ)
    (indices : List Nat) (top_k : Nat) : List SearchResult :=
  let query_embedding := encode query
  let results := (chunks.zip (distances.zip indices)).map (fun x =>
    { chunk := x.1.chunk_text,
      context := get_context_window (chunks.map Chunk.chunk_text) x.2.2 2,
      relevance_score :=
        calculate_relevance_score query_embedding (encode x.1.chunk_text) x.2.1,
      distance := x.2.1,
      position := x.2.2 })
  (sortByScoreDesc results).take top_k

/-- The dedup-and-filter loop of `query_documents` (api/query.py lines
66-75): walk the sorted list, skip positions already seen or scores below
`min_score`, and stop after `top_k` acceptances (the length check runs
after the append, as in the source). -/
noncomputable def dedupFilter (min_score : ℝ) (top_k : Nat) :
    List SearchResult → List Nat → Nat → List SearchResult
  | [], _, _ => []
  | r :: rest, seen, accepted =>
      if r.position ∉ seen ∧ min_score ≤ r.relevance_score then
        if top_k ≤ accepted + 1 then [r]
        else r :: dedupFilter min_score top_k rest (r.position :: seen) (accepted + 1)
      else dedupFilter min_score top_k rest seen accepted

/-- The merge, sort, dedup and filter applied by `query_documents` to the
flat multiset of per-variant results (api/query.py lines 66-75). -/
noncomputable def retrieve_filtered (all_results : List SearchResult)
    (min_score : ℝ) (top_k : Nat) : List SearchResult :=
  dedupFilter min_score top_k (sortByScoreDesc all_results) [] 0

/-- The per-variant loop of `query_documents` (api/query.py lines 52-64):
embed each variant with the external model and extend `all_results` with
that variant's processed results.  `encodeVariant` may fail (the external
`EmbeddingFailure`); the source has no per-variant handler, so the model
propagates the first failure, as the loop body's exception does. -/
def gather_variant_results (encodeVariant : List Char → Except Unit (List ℝ))
    (processVariant : List Char → List ℝ → List SearchResult) :
    List (List Char) → Except Unit (List SearchResult)
  | [] => .ok []
  | v :: rest =>
      match encodeVariant v with
      | .error e => .error e
      | .ok emb =>
          match gather_variant_results encodeVariant processVariant rest with
          | .error e => .error e
          | .ok rs => .ok (processVariant v emb ++ rs)

/-- The retrieval pipeline of `query_documents` (api/query.py lines 50-75):
gather per-variant results, then sort, dedup and filter. -/
noncomputable def query_documents_filtered
    (encodeVariant : List Char → Except Unit (List ℝ))
    (processVariant : List Char → List ℝ → List SearchResult)
    (variants : List (List Char)) (min_score : ℝ) (top_k : Nat) :
    Except Unit (List SearchResult) :=
  (gather_variant_results encodeVariant processVariant variants).map
    (fun all_results => retrieve_filtered all_results min_score top_k)

/-! ### Persistence (src/Backend/app/embedder.py, api/upload.py) -/

/-- `embed_text_chunks` / `create_faiss_index` (embedder.py lines 15-34,
75-83): the stored FAISS index is the list of chunk embeddings in chunk
order; `encode` is the injected embedding model. -/
def create_faiss_index (encode : List Char → List ℝ) (chunks : List Chunk) :
    List (List ℝ) :=
  chunks.map (fun c => encode c.chunk_text)

/-- The two on-disk artifacts `faiss_index.index` and `chunks.pkl`
(embedder.py lines 37-38); `none` models an absent file. -/
structure PersistedState where
  indexFile : Option (List (List ℝ))
  chunksFile : Option (List Chunk)

/-- `save_index` (embedder.py lines 40-53): overwrite both files with the
given index and chunk list. -/
def save_index (index : List (List ℝ)) (chunks : List Chunk)
    (_s : PersistedState) : PersistedState :=
  { indexFile := some index, chunksFile := some chunks }

/-- `load_index_and_chunks` (embedder.py lines 55-73): if either file is
missing, return `(None, None)`; otherwise return both, with no
consistency check between them. -/
def load_index_and_chunks (s : PersistedState) :
    Option (List (List ℝ)) × Option (List Chunk) :=
  match s.indexFile, s.chunksFile with
  | some i, some c => (some i, some c)
  | _, _ => (none, none)

/-- The indexing step of `process_file` (api/upload.py lines 100-108):
build a fresh index from this document's chunks alone and save it. -/
def process_file_index_step (encode : List Char → List ℝ)
    (docChunks : List Chunk) (s : PersistedState) : PersistedState :=
  save_index (create_faiss_index encode docChunks) docChunks s

/-- A sequence of successful uploads: `upload_files` (api/upload.py lines
143-166) runs `process_file` on each document in order. -/
def upload_sequence (encode : List Char → List ℝ) (s : PersistedState)
    (docs : List (List Chunk)) : PersistedState :=
  docs.foldl (fun st d => process_file_index_step encode d st) s

/-! ### Concrete sample data used by witnesses and counterexamples -/

/-- A sample chunk with text `a`. -/
def demoChunkA : Chunk :=
  { chunk_text := "a".data, document := "d".data, page := 1, paragraph := 1, sentence := 1 }

/-- A sample chunk with text `b`. -/
def demoChunkB : Chunk :=
  { chunk_text := "b".data, document := "d".data, page := 1, paragraph := 2, sentence := 1 }

/-- A deterministic sample embedding model: text `b` maps to `[0, 1]`,
everything else to `[1, 0]`. -/
noncomputable def encodeDemo (t : List Char) : List ℝ :=
  if t = "b".data then [0, 1] else [1, 0]

/-- A sample scored result. -/
noncomputable def sampleResult : SearchResult :=
  { chunk := "a".data, context := "a".data, relevance_score := 1,
    distance := 0, position := 0 }

/-! ## Theorems -/

/-- C5: for every query vector, chunk vector and raw distance, the scorer's
output lies in `[0,1]` and equals
`clamp((0.7 * cos_sim(q,c) + 0.3 * (1 - d/2.0)) * 1.2, 0, 1)`. -/
theorem calculate_relevance_score_spec (q c : List ℝ) (d : ℝ) :
    (0 ≤ calculate_relevance_score q c d ∧ calculate_relevance_score q c d ≤ 1) ∧
    calculate_relevance_score q c d =
      max 0 (min 1 ((0.7 * cos_sim q c + 0.3 * (1 - d / 2.0)) * 1.2)) := by
  have heq : calculate_relevance_score q c d =
      max 0 (min 1 ((0.7 * cos_sim q c + 0.3 * (1 - d / 2.0)) * 1.2)) := by
    simp only [calculate_relevance_score]
    norm_num
  refine ⟨⟨?_, ?_⟩, heq⟩
  · rw [heq]; exact le_max_left _ _
  · rw [heq]; exact max_le (by norm_num) (min_le_left _ _)

/-- Python slice `(l.drop s).take n` enumerates the elements at indices
`s, s+1, …, s+n-1` when those are in range. -/
theorem drop_take_eq_range_map {α : Type} (l : List α) (d : α) :
    ∀ (n s : Nat), s + n ≤ l.length →
      (l.drop s).take n = (List.range' s n).map (fun i => l.getD i d) := by
  intro n
  induction n with
  | zero => intro s _; simp
  | succ n ih =>
      intro s h
      have hs : s < l.length := by omega
      rw [List.drop_eq_getElem_cons hs, List.take_succ_cons, List.range'_succ,
        List.map_cons]
      congr 1
      · rw [List.getD_eq_getElem?_getD, List.getElem?_eq_getElem hs]
        rfl
      · exact ih (s + 1) (by omega)

/-- C7: for every chunk sequence, every in-range position and every window,
`get_context_window` returns exactly the space-joined chunk texts at
positions `max(0, p-w)` through `min(len-1, p+w)` in ascending order, and
every index it touches is inside `[0, len-1]` (natural subtraction `p - w`
is exactly the `max(0, p-w)` clamp, as the last conjunct records). -/
theorem get_context_window_spec (chunks : List (List Char)) (p w : Nat)
    (h : p < chunks.length) :
    get_context_window chunks p w =
      joinSpace ((List.range' (p - w)
        (min (chunks.length - 1) (p + w) + 1 - (p - w))).map
          (fun i => chunks.getD i [])) ∧
    (∀ i ∈ List.range' (p - w) (min (chunks.length - 1) (p + w) + 1 - (p - w)),
      i < chunks.length) ∧
    ((p - w : Nat) : ℤ) = max 0 ((p : ℤ) - (w : ℤ)) := by
  refine ⟨?_, ?_, by omega⟩
  · have hdef : get_context_window chunks p w
        = joinSpace ((chunks.drop (p - w)).take
            (min chunks.length (p + w + 1) - (p - w))) := rfl
    have hcount : min chunks.length (p + w + 1) - (p - w)
        = min (chunks.length - 1) (p + w) + 1 - (p - w) := by omega
    rw [hdef,
      drop_take_eq_range_map chunks ([] : List Char)
        (min chunks.length (p + w + 1) - (p - w)) (p - w) (by omega),
      hcount]
  · intro i hi
    rw [List.mem_range'_1] at hi
    omega

/-- Witness for C7 at a concrete three-chunk sequence. -/
theorem get_context_window_spec_witness :
    (1 < ([['a'], ['b'], ['c']] : List (List Char)).length) ∧
    (get_context_window [['a'], ['b'], ['c']] 1 5 =
      joinSpace ((List.range' (1 - 5)
        (min (([['a'], ['b'], ['c']] : List (List Char)).length - 1) (1 + 5) + 1 - (1 - 5))).map
          (fun i => ([['a'], ['b'], ['c']] : List (List Char)).getD i [])) ∧
    (∀ i ∈ List.range' (1 - 5)
        (min (([['a'], ['b'], ['c']] : List (List Char)).length - 1) (1 + 5) + 1 - (1 - 5)),
      i < ([['a'], ['b'], ['c']] : List (List Char)).length) ∧
    ((1 - 5 : Nat) : ℤ) = max 0 ((1 : ℤ) - (5 : ℤ))) :=
  ⟨by decide, get_context_window_spec [['a'], ['b'], ['c']] 1 5 (by decide)⟩

/-- C8 counterexample: loading an index file without its chunks file yields
the same `(None, None)` value as the fully absent state (no distinct
corrupt-index failure), and an index/chunks pair with different entry
counts (1 vs 2) loads without any error at all. -/
theorem load_index_and_chunks_counterexample :
    load_index_and_chunks { indexFile := some [[1]], chunksFile := none }
      = load_index_and_chunks { indexFile := none, chunksFile := none } ∧
    load_index_and_chunks
        { indexFile := some [[1]], chunksFile := some [demoChunkA, demoChunkB] }
      = (some [[1]], some [demoChunkA, demoChunkB]) ∧
    [[(1 : ℝ)]].length ≠ [demoChunkA, demoChunkB].length :=
  ⟨rfl, rfl, by decide⟩

/-- C8 amended: loading when either persisted file is absent returns
`(None, None)` — the same observable value as the absent-index condition —
and a present index/chunks pair is returned as-is with no entry-count
consistency check and no corrupt-index error. -/
theorem load_index_and_chunks_amended (i : List (List ℝ)) (c : List Chunk) :
    load_index_and_chunks { indexFile := some i, chunksFile := none } = (none, none) ∧
    load_index_and_chunks { indexFile := none, chunksFile := some c } = (none, none) ∧
    load_index_and_chunks { indexFile := none, chunksFile := none } = (none, none) ∧
    load_index_and_chunks { indexFile := some i, chunksFile := some c }
      = (some i, some c) :=
  ⟨rfl, rfl, rfl, rfl⟩

/-- C2 (code bug): evaluating the upload path at the failing input.  After
successfully uploading document A (one chunk, at position 0) and then
document B, the persisted chunk sequence holds only B's chunk; A's chunk
is gone and position 0 now denotes B's chunk, so positions are reused and
the persisted index does not contain the chunks of every document indexed
so far.  This holds for every prior persisted state and embedding model. -/
theorem upload_sequence_failing_input (encode : List Char → List ℝ)
    (s : PersistedState) :
    (upload_sequence encode s [[demoChunkA], [demoChunkB]]).chunksFile
      = some [demoChunkB] ∧
    (upload_sequence encode s [[demoChunkA], [demoChunkB]]).indexFile
      = some [encode demoChunkB.chunk_text] ∧
    demoChunkA ∉ [demoChunkB] ∧
    [demoChunkB].getD 0 demoChunkB = demoChunkB :=
  ⟨rfl, rfl, by decide, rfl⟩

/-- C10: for every non-empty query the variant list produced by
`expand_query` contains the original query itself, and never contains an
empty string, on both the successful-expansion path and the fallback
path. -/
theorem expand_query_contains_query (llmResponse : Option (List Char))
    (query : List Char) (h : query ≠ []) :
    query ∈ expand_query llmResponse query ∧
    [] ∉ expand_query llmResponse query := by
  constructor
  · cases llmResponse with
    | none => simp [expand_query, List.mem_dedup, List.mem_filter, h]
    | some t => simp [expand_query, List.mem_dedup, List.mem_filter, h]
  · intro hmem
    cases llmResponse with
    | none => simp [expand_query, List.mem_dedup, List.mem_filter] at hmem
    | some t => simp [expand_query, List.mem_dedup, List.mem_filter] at hmem

/-- Witness for C10 on the concrete query `fever` along the fallback path. -/
theorem expand_query_contains_query_witness :
    "fever".data ≠ [] ∧
    ("fever".data ∈ expand_query none "fever".data ∧
     [] ∉ expand_query none "fever".data) :=
  ⟨by decide, expand_query_contains_query none "fever".data (by decide)⟩

/-- The dedup loop accepts position-distinct results only: its output's
positions are pairwise distinct and disjoint from the `seen` set. -/
theorem dedupFilter_nodup_aux (min_score : ℝ) (top_k : Nat) :
    ∀ (rs : List SearchResult) (seen : List Nat) (acc : Nat),
      ((dedupFilter min_score top_k rs seen acc).map SearchResult.position).Nodup ∧
      ∀ r ∈ dedupFilter min_score top_k rs seen acc, r.position ∉ seen := by
  intro rs
  induction rs with
  | nil => intro seen acc; simp [dedupFilter]
  | cons r rest ih =>
      intro seen acc
      by_cases h1 : r.position ∉ seen ∧ min_score ≤ r.relevance_score
      · by_cases h2 : top_k ≤ acc + 1
        · rw [dedupFilter, if_pos h1, if_pos h2]
          exact ⟨by simp, by simpa using h1.1⟩
        · rw [dedupFilter, if_pos h1, if_neg h2]
          obtain ⟨ihn, ihs⟩ := ih (r.position :: seen) (acc + 1)
          constructor
          · rw [List.map_cons, List.nodup_cons]
            refine ⟨?_, ihn⟩
            intro hcontra
            obtain ⟨r1, hr1, hr1pos⟩ := List.mem_map.mp hcontra
            exact (ihs r1 hr1) (hr1pos ▸ List.mem_cons_self _ _)
          · intro r1 hr1
            rcases List.mem_cons.mp hr1 with rfl | hr1'
            · exact h1.1
            · intro hcontra
              exact (ihs r1 hr1') (List.mem_cons_of_mem _ hcontra)
      · rw [dedupFilter, if_neg h1]
        exact ih seen acc

/-- C3: every result list returned by the retrieval pipeline — any
variants, any per-variant results, any `top_k` and `min_score` — contains
no two results with the same position. -/
theorem query_documents_nodup_positions
    (encodeVariant : List Char → Except Unit (List ℝ))
    (processVariant : List Char → List ℝ → List SearchResult)
    (variants : List (List Char)) (min_score : ℝ) (top_k : Nat)
    (out : List SearchResult)
    (h : query_documents_filtered encodeVariant processVariant variants
          min_score top_k = .ok out) :
    (out.map SearchResult.position).Nodup := by
  unfold query_documents_filtered at h
  cases hg : gather_variant_results encodeVariant processVariant variants with
  | error e => rw [hg] at h; simp [Except.map] at h
  | ok all_results =>
      rw [hg] at h
      simp only [Except.map, Except.ok.injEq] at h
      rw [← h]
      exact (dedupFilter_nodup_aux min_score top_k
        (sortByScoreDesc all_results) [] 0).1

/-- Witness for C3 at a concrete (empty-variants) pipeline call. -/
theorem query_documents_nodup_positions_witness :
    query_documents_filtered (fun _ => .ok []) (fun _ _ => []) [] 0 5 = .ok [] ∧
    (([] : List SearchResult).map SearchResult.position).Nodup :=
  ⟨rfl, query_documents_nodup_positions (fun _ => .ok []) (fun _ _ => [])
    [] 0 5 [] rfl⟩

/-- Every accepted result of the dedup loop over a descending-sorted list
is drawn from that list, meets the score threshold, has an unseen
position, and dominates every same-position occurrence in the list. -/
theorem dedupFilter_max_aux (min_score : ℝ) (top_k : Nat) :
    ∀ (rs : List SearchResult) (seen : List Nat) (acc : Nat),
      List.Sorted scoreGE rs →
      ∀ x ∈ dedupFilter min_score top_k rs seen acc,
        x ∈ rs ∧ min_score ≤ x.relevance_score ∧ x.position ∉ seen ∧
        ∀ y ∈ rs, y.position = x.position →
          y.relevance_score ≤ x.relevance_score := by
  intro rs
  induction rs with
  | nil => intro seen acc _ x hx; simp [dedupFilter] at hx
  | cons r rest ih =>
      intro seen acc hsorted x hx
      obtain ⟨hr_rest, hsorted'⟩ := List.sorted_cons.mp hsorted
      by_cases h1 : r.position ∉ seen ∧ min_score ≤ r.relevance_score
      · by_cases h2 : top_k ≤ acc + 1
        · rw [dedupFilter, if_pos h1, if_pos h2] at hx
          rcases List.mem_singleton.mp hx with rfl
          refine ⟨List.mem_cons_self _ _, h1.2, h1.1, ?_⟩
          intro y hy hpos
          rcases List.mem_cons.mp hy with rfl | hy'
          · exact le_refl _
          · exact hr_rest y hy'
        · rw [dedupFilter, if_pos h1, if_neg h2] at hx
          rcases List.mem_cons.mp hx with rfl | hx'
          · refine ⟨List.mem_cons_self _ _, h1.2, h1.1, ?_⟩
            intro y hy hpos
            rcases List.mem_cons.mp hy with rfl | hy'
            · exact le_refl _
            · exact hr_rest y hy'
          · obtain ⟨hmem, hms, hseen, hmax⟩ :=
              ih (r.position :: seen) (acc + 1) hsorted' x hx'
            refine ⟨List.mem_cons_of_mem _ hmem, hms, ?_, ?_⟩
            · intro hcontra; exact hseen (List.mem_cons_of_mem _ hcontra)
            · intro y hy hpos
              rcases List.mem_cons.mp hy with rfl | hy'
              · exfalso
                exact hseen (hpos ▸ List.mem_cons_self _ _)
              · exact hmax y hy' hpos
      · rw [dedupFilter, if_neg h1] at hx
        obtain ⟨hmem, hms, hseen, hmax⟩ := ih seen acc hsorted' x hx
        refine ⟨List.mem_cons_of_mem _ hmem, hms, hseen, ?_⟩
        intro y hy hpos
        rcases List.mem_cons.mp hy with rfl | hy'
        · rcases not_and_or.mp h1 with hpos' | hscore
          · exact absurd (hpos ▸ hseen) (by simpa using hpos')
          · exact le_trans (le_of_not_le hscore) hms
        · exact hmax y hy' hpos

/-- C4: every result accepted into the final list is an occurrence from
the flat per-variant multiset, and its relevance score is the maximum
score among all occurrences of its position in that multiset. -/
theorem retrieve_filtered_max_score (all_results : List SearchResult)
    (min_score : ℝ) (top_k : Nat) (x : SearchResult)
    (h : x ∈ retrieve_filtered all_results min_score top_k) :
    x ∈ all_results ∧
    ∀ y ∈ all_results, y.position = x.position →
      y.relevance_score ≤ x.relevance_score := by
  have hs : List.Sorted scoreGE (sortByScoreDesc all_results) :=
    List.sorted_insertionSort scoreGE all_results
  obtain ⟨hmem, _, _, hmax⟩ :=
    dedupFilter_max_aux min_score top_k (sortByScoreDesc all_results) [] 0 hs x h
  refine ⟨(List.mem_insertionSort scoreGE).mp hmem, ?_⟩
  intro y hy hpos
  exact hmax y ((List.mem_insertionSort scoreGE).mpr hy) hpos

/-- Witness for C4 at a concrete singleton multiset. -/
theorem retrieve_filtered_max_score_witness :
    sampleResult ∈ retrieve_filtered [sampleResult] 0 1 ∧
    (sampleResult ∈ [sampleResult] ∧
     ∀ y ∈ [sampleResult], y.position = sampleResult.position →
       y.relevance_score ≤ sampleResult.relevance_score) := by
  have hsort : sortByScoreDesc [sampleResult] = [sampleResult] := rfl
  have hcond : sampleResult.position ∉ ([] : List Nat) ∧
      (0 : ℝ) ≤ sampleResult.relevance_score :=
    ⟨List.not_mem_nil _, by norm_num [sampleResult]⟩
  have hmem : sampleResult ∈ retrieve_filtered [sampleResult] 0 1 := by
    unfold retrieve_filtered
    rw [hsort, dedupFilter, if_pos hcond, if_pos (by norm_num : (1 : Nat) ≤ 0 + 1)]
    exact List.mem_singleton.mpr rfl
  exact ⟨hmem, retrieve_filtered_max_score [sampleResult] 0 1 sampleResult hmem⟩

/-- C9 counterexample: with the two variants `bad` and `good` where
embedding fails only on `bad`, the whole gather loop returns an error —
the surviving variant's results are not merged and returned — although the
same call with `good` alone succeeds. -/
theorem gather_variant_results_counterexample :
    gather_variant_results
      (fun v => if v = "bad".data then .error () else .ok [])
      (fun _ _ => []) ["bad".data, "good".data] = .error () ∧
    gather_variant_results
      (fun v => if v = "bad".data then .error () else .ok [])
      (fun _ _ => []) ["good".data] = .ok [] := by
  constructor
  · simp [gather_variant_results]
  · simp [gather_variant_results]

/-- C9 amended: an embedding failure for any single variant aborts the
whole retrieval call — both the gather loop and the full pipeline return
an error instead of the remaining variants' merged results. -/
theorem gather_variant_results_amended
    (encodeVariant : List Char → Except Unit (List ℝ))
    (processVariant : List Char → List ℝ → List SearchResult)
    (variants : List (List Char)) (min_score : ℝ) (top_k : Nat)
    (h : ∃ v ∈ variants, ∃ e, encodeVariant v = .error e) :
    ∃ e, gather_variant_results encodeVariant processVariant variants
          = .error e ∧
      query_documents_filtered encodeVariant processVariant variants
          min_score top_k = .error e := by
  have hg : ∃ e, gather_variant_results encodeVariant processVariant variants
      = .error e := by
    induction variants with
    | nil => rcases h with ⟨v, hv, _⟩; simp at hv
    | cons v rest ih =>
        rcases h with ⟨w, hw, e, he⟩
        rcases List.mem_cons.mp hw with rfl | hw'
        · exact ⟨e, by simp [gather_variant_results, he]⟩
        · cases hv : encodeVariant v with
          | error e1 => exact ⟨e1, by simp [gather_variant_results, hv]⟩
          | ok emb =>
              obtain ⟨e2, h2⟩ := ih ⟨w, hw', e, he⟩
              exact ⟨e2, by simp [gather_variant_results, hv, h2]⟩
  obtain ⟨e, he⟩ := hg
  exact ⟨e, he, by simp [query_documents_filtered, he, Except.map]⟩

/-- Witness for C9 at the concrete failing instance. -/
theorem gather_variant_results_amended_witness :
    (∃ v ∈ ["bad".data, "good".data], ∃ e,
      (fun v => if v = "bad".data then (.error () : Except Unit (List ℝ))
        else .ok []) v = .error e) ∧
    ∃ e, gather_variant_results
        (fun v => if v = "bad".data then .error () else .ok [])
        (fun _ _ => []) ["bad".data, "good".data] = .error e ∧
      query_documents_filtered
        (fun v => if v = "bad".data then .error () else .ok [])
        (fun _ _ => []) ["bad".data, "good".data] 0 5 = .error e :=
  ⟨⟨"bad".data, by simp, (), by simp⟩,
    gather_variant_results_amended _ _ _ 0 5 ⟨"bad".data, by simp, (), by simp⟩⟩

/-- C1 (code bug): `process_search_results` zips the full corpus chunk
list positionally against the per-hit `distances` and `indices` arrays, so
a result's relevance score comes from the chunk at enumeration slot `i`
while the result carries `position = indices[i]`.  At the failing input —
corpus `[a, b]`, a single hit `(position 1, raw distance 0)`, an embedding
model sending `a` and the query to `[1,0]` and `b` to `[0,1]` — the one
returned result carries position 1 with attached score 1 (computed from
chunk `a`, corpus slot 0), whereas the score computed from the embedding
of the chunk actually stored at position 1 (`b`) with that hit's distance
is 0.36. -/
theorem process_search_results_failing_input :
    (process_search_results encodeDemo "q".data [demoChunkA, demoChunkB]
      [(0 : ℝ)] [1] 5).map (fun r => (r.position, r.relevance_score))
      = [(1, (1 : ℝ))] ∧
    [demoChunkA, demoChunkB].getD 1 demoChunkA = demoChunkB ∧
    calculate_relevance_score (encodeDemo "q".data)
      (encodeDemo demoChunkB.chunk_text) 0 = 0.36 ∧
    ((1 : ℝ)) ≠ 0.36 := by
  have hq : encodeDemo "q".data = [(1 : ℝ), 0] := by simp [encodeDemo]
  have ha : encodeDemo demoChunkA.chunk_text = [(1 : ℝ), 0] := by
    simp [encodeDemo, demoChunkA]
  have hb : encodeDemo demoChunkB.chunk_text = [(0 : ℝ), 1] := by
    simp [encodeDemo, demoChunkB]
  have hs1 : calculate_relevance_score (encodeDemo "q".data)
      (encodeDemo demoChunkA.chunk_text) 0 = 1 := by
    rw [hq, ha]
    have hcos : cos_sim [(1 : ℝ), 0] [(1 : ℝ), 0] = 1 := by
      have hd : dotList [(1 : ℝ), 0] [(1 : ℝ), 0] = 1 := by simp [dotList]
      rw [cos_sim, hd, Real.sqrt_one]; norm_num
    simp only [calculate_relevance_score, hcos]
    norm_num [min_def, max_def]
  have hs2 : calculate_relevance_score (encodeDemo "q".data)
      (encodeDemo demoChunkB.chunk_text) 0 = 0.36 := by
    rw [hq, hb]
    have hcos : cos_sim [(1 : ℝ), 0] [(0 : ℝ), 1] = 0 := by
      have hd : dotList [(1 : ℝ), 0] [(0 : ℝ), 1] = 0 := by simp [dotList]
      rw [cos_sim, hd]; norm_num
    simp only [calculate_relevance_score, hcos]
    norm_num [min_def, max_def]
  have hres : process_search_results encodeDemo "q".data
      [demoChunkA, demoChunkB] [(0 : ℝ)] [1] 5
      = [{ chunk := demoChunkA.chunk_text,
           context := get_context_window
             ([demoChunkA, demoChunkB].map Chunk.chunk_text) 1 2,
           relevance_score := calculate_relevance_score (encodeDemo "q".data)
             (encodeDemo demoChunkA.chunk_text) 0,
           distance := 0, position := 1 }] := rfl
  refine ⟨?_, rfl, hs2, by norm_num⟩
  rw [hres, List.map_cons, List.map_nil, hs1]

/-- A string whose strip is empty consists of whitespace only. -/
theorem trimText_eq_nil {l : List Char} (h : trimText l = []) :
    ∀ c ∈ l, isWS c = true := by
  intro c hc
  unfold trimText at h
  rw [List.reverse_eq_nil_iff, List.dropWhile_eq_nil_iff] at h
  have hdrop : ∀ x ∈ l.dropWhile isWS, isWS x = true := by
    intro x hx
    exact h x (List.mem_reverse.mpr hx)
  have hsplit := List.takeWhile_append_dropWhile isWS l
  rw [← hsplit] at hc
  rcases List.mem_append.mp hc with h1 | h2
  · exact List.mem_takeWhile_imp h1
  · exact hdrop c h2

/-- A string containing a non-whitespace character strips to non-empty. -/
theorem trimText_ne_nil_of_mem {l : List Char} {c : Char} (hc : c ∈ l)
    (hw : isWS c = false) : trimText l ≠ [] := by
  intro hnil
  rw [trimText_eq_nil hnil c hc] at hw
  simp at hw

/-- The head surviving a `dropWhile` fails the dropped predicate. -/
theorem head_dropWhile_false (p : Char → Bool) :
    ∀ (x : List Char) (c : Char), (x.dropWhile p).head? = some c → p c = false := by
  intro x
  induction x with
  | nil => intro c h; simp [List.dropWhile] at h
  | cons a t ih =>
      intro c h
      by_cases hp : p a = true
      · rw [List.dropWhile_cons_of_pos hp] at h
        exact ih c h
      · rw [List.dropWhile_cons_of_neg hp] at h
        simp at h
        rw [← h]
        simpa using hp

/-- A non-empty stripped string ends in a non-whitespace character. -/
theorem trimText_getLast_not_ws {l : List Char} (h : trimText l ≠ []) :
    ∃ c, (trimText l).getLast? = some c ∧ isWS c = false := by
  have hrev : trimText l = ((l.dropWhile isWS).reverse.dropWhile isWS).reverse := rfl
  cases hd : (l.dropWhile isWS).reverse.dropWhile isWS with
  | nil => exact absurd (by rw [hrev, hd]; rfl) h
  | cons c cs =>
      refine ⟨c, ?_, ?_⟩
      · rw [hrev, hd, List.getLast?_reverse]
        rfl
      · apply head_dropWhile_false isWS ((l.dropWhile isWS).reverse)
        rw [hd]
        rfl

/-- Every non-whitespace character of the input survives the blank-line
split into some piece (only the `\n\n` separators are consumed). -/
theorem splitNNCore_mem (xs : List Char) :
    ∀ c ∈ xs, isWS c = false →
      c ∈ (splitNNCore xs).1 ∨ ∃ p ∈ (splitNNCore xs).2, c ∈ p := by
  induction xs using splitNNCore.induct with
  | case1 => intro c hc; simp at hc
  | case2 rest ih =>
      intro c hc hw
      rcases List.mem_cons.mp hc with rfl | hc'
      · simp [isWS] at hw
      rcases List.mem_cons.mp hc' with rfl | hc''
      · simp [isWS] at hw
      rcases ih c hc'' hw with h1 | ⟨p, hp, hcp⟩
      · refine Or.inr ⟨(splitNNCore rest).1, ?_, h1⟩
        simp [splitNNCore]
      · refine Or.inr ⟨p, ?_, hcp⟩
        simp [splitNNCore]
        exact Or.inr hp
  | case3 a rest hne ih =>
      intro c hc hw
      rcases List.mem_cons.mp hc with rfl | hc'
      · left
        simp [splitNNCore]
      · rcases ih c hc' hw with h1 | ⟨p, hp, hcp⟩
        · left
          simp [splitNNCore]
          exact Or.inr h1
        · right
          refine ⟨p, ?_, hcp⟩
          simp [splitNNCore]
          exact hp

/-- The sentence splitter always returns at least one piece. -/
theorem splitSentAux_ne_nil :
    ∀ (xs : List Char) (mode : Bool) (cur : List Char),
      splitSentAux mode cur xs ≠ [] := by
  intro xs
  induction xs with
  | nil => intro mode cur; simp [splitSentAux]
  | cons a t ih =>
      intro mode cur
      rw [splitSentAux]
      by_cases h1 : (mode && cur.isEmpty && (a == ' ')) = true
      · rw [if_pos h1]; exact ih true []
      · rw [if_neg h1]
        by_cases h2 : (isSentEnd a && (t.head? == some ' ')) = true
        · rw [if_pos h2]; simp
        · rw [if_neg h2]; exact ih false (a :: cur)

/-- If the input ends in a non-whitespace character, the sentence
splitter's last piece ends in that same character. -/
theorem splitSentAux_getLast :
    ∀ (xs : List Char) (mode : Bool) (cur : List Char) (c : Char),
      xs.getLast? = some c → isWS c = false →
      ∃ piece, (splitSentAux mode cur xs).getLast? = some piece ∧
        piece.getLast? = some c := by
  intro xs
  induction xs with
  | nil => intro mode cur c h hw; simp at h
  | cons a t ih =>
      intro mode cur c hlast hw
      cases t with
      | nil =>
          simp at hlast
          subst hlast
          have hcsp : (a == ' ') = false := by
            cases hceq : (a == ' ') with
            | false => rfl
            | true =>
                rw [beq_iff_eq] at hceq
                subst hceq
                simp [isWS] at hw
          rw [splitSentAux]
          rw [if_neg (by simp [hcsp])]
          rw [if_neg (by simp)]
          rw [splitSentAux]
          refine ⟨(a :: cur).reverse, by simp, ?_⟩
          rw [List.getLast?_reverse]
          rfl
      | cons b t2 =>
          rw [List.getLast?_cons_cons] at hlast
          rw [splitSentAux]
          by_cases h1 : (mode && cur.isEmpty && (a == ' ')) = true
          · rw [if_pos h1]; exact ih true [] c hlast hw
          · rw [if_neg h1]
            by_cases h2 : (isSentEnd a && ((b :: t2).head? == some ' ')) = true
            · rw [if_pos h2]
              obtain ⟨piece, hp, hpc⟩ := ih true [] c hlast hw
              refine ⟨piece, ?_, hpc⟩
              cases hsp : splitSentAux true [] (b :: t2) with
              | nil => exact absurd hsp (splitSentAux_ne_nil _ _ _)
              | cons y ys =>
                  rw [hsp] at hp
                  rw [List.getLast?_cons_cons]
                  exact hp
            · rw [if_neg h2]; exact ih false (a :: cur) c hlast hw

/-- If the last raw sentence piece strips to non-empty, the accumulation
loop emits at least one chunk (the final flush fires at the last index). -/
theorem sentLoop_ne_nil (doc : List Char) (page paraIdx total : Nat) :
    ∀ (sents : List (List Char)) (i : Nat) (buf : List (List Char)) (len : Nat)
      (s : List Char),
      sents.getLast? = some s → trimText s ≠ [] → i + sents.length = total + 1 →
      sentLoop doc page paraIdx total sents i buf len ≠ [] := by
  intro sents
  induction sents with
  | nil => intro i buf len s h _ _; simp at h
  | cons s0 rest ih =>
      intro i buf len s hlast htrim hidx
      cases rest with
      | nil =>
          simp at hlast
          subst hlast
          have hi : i = total := by simp at hidx; omega
          simp only [sentLoop]
          rw [if_neg htrim, if_pos (Or.inr hi)]
          simp
      | cons s1 rest2 =>
          rw [List.getLast?_cons_cons] at hlast
          have hidx' : (i + 1) + (s1 :: rest2).length = total + 1 := by
            simp at hidx ⊢; omega
          simp only [sentLoop]
          by_cases h0 : trimText s0 = []
          · rw [if_pos h0]; exact ih (i + 1) buf len s hlast htrim hidx'
          · rw [if_neg h0]
            by_cases hf : 100 ≤ len + (pyWords (trimText s0)).length ∨ i = total
            · rw [if_pos hf]; simp
            · rw [if_neg hf]
              exact ih (i + 1) (buf ++ [trimText s0])
                (len + (pyWords (trimText s0)).length) s hlast htrim hidx'

/-- Every chunk emitted by the sentence loop carries its paragraph index. -/
theorem sentLoop_paragraph (doc : List Char) (page paraIdx total : Nat) :
    ∀ (sents : List (List Char)) (i : Nat) (buf : List (List Char)) (len : Nat)
      (c : Chunk), c ∈ sentLoop doc page paraIdx total sents i buf len →
      c.paragraph = paraIdx := by
  intro sents
  induction sents with
  | nil => intro i buf len c hc; simp [sentLoop] at hc
  | cons s0 rest ih =>
      intro i buf len c hc
      simp only [sentLoop] at hc
      by_cases h0 : trimText s0 = []
      · rw [if_pos h0] at hc; exact ih (i + 1) buf len c hc
      · rw [if_neg h0] at hc
        by_cases hf : 100 ≤ len + (pyWords (trimText s0)).length ∨ i = total
        · rw [if_pos hf] at hc
          rcases List.mem_cons.mp hc with rfl | hc'
          · rfl
          · exact ih (i + 1) [] 0 c hc'
        · rw [if_neg hf] at hc
          exact ih (i + 1) (buf ++ [trimText s0])
            (len + (pyWords (trimText s0)).length) c hc

/-- Chunks produced from the paragraph loop started at index `i` carry
paragraph indices at least `i`. -/
theorem paraLoop_paragraph_ge (doc : List Char) (page : Nat) :
    ∀ (ps : List (List Char)) (i : Nat) (c : Chunk),
      c ∈ paraLoop doc page i ps → i ≤ c.paragraph := by
  intro ps
  induction ps with
  | nil => intro i c hc; simp [paraLoop] at hc
  | cons p rest ih =>
      intro i c hc
      rw [paraLoop] at hc
      rcases List.mem_append.mp hc with h1 | h2
      · by_cases hs : (pyWords p).length < 50
        · rw [if_pos hs] at h1
          rcases List.mem_singleton.mp h1 with rfl
          exact le_refl _
        · rw [if_neg hs] at h1
          rw [sentLoop_paragraph doc page i (splitSent p).length
            (splitSent p) 1 [] 0 c h1]
      · exact le_trans (Nat.le_succ i) (ih (i + 1) c h2)

/-- A constant projection over a list is sorted. -/
theorem sorted_map_const {l : List Chunk} {i : Nat}
    (h : ∀ x ∈ l, x.paragraph = i) :
    List.Sorted (· ≤ ·) (l.map Chunk.paragraph) := by
  induction l with
  | nil => simp
  | cons a t ih =>
      rw [List.map_cons, List.sorted_cons]
      constructor
      · intro b hb
        obtain ⟨y, hy, rfl⟩ := List.mem_map.mp hb
        rw [h a (List.mem_cons_self _ _), h y (List.mem_cons_of_mem _ hy)]
      · exact ih fun x hx => h x (List.mem_cons_of_mem _ hx)

/-- The paragraph loop emits chunks in nondecreasing paragraph order. -/
theorem paraLoop_sorted (doc : List Char) (page : Nat) :
    ∀ (ps : List (List Char)) (i : Nat),
      List.Sorted (· ≤ ·) ((paraLoop doc page i ps).map Chunk.paragraph) := by
  intro ps
  induction ps with
  | nil => intro i; simp [paraLoop]
  | cons p rest ih =>
      intro i
      rw [paraLoop, List.map_append]
      rw [List.Sorted, List.pairwise_append]
      refine ⟨?_, ih (i + 1), ?_⟩
      · apply sorted_map_const
        intro x hx
        by_cases hs : (pyWords p).length < 50
        · rw [if_pos hs] at hx
          rcases List.mem_singleton.mp hx with rfl
          rfl
        · rw [if_neg hs] at hx
          exact sentLoop_paragraph doc page i (splitSent p).length
            (splitSent p) 1 [] 0 x hx
      · intro a ha b hb
        obtain ⟨x, hx, rfl⟩ := List.mem_map.mp ha
        obtain ⟨y, hy, rfl⟩ := List.mem_map.mp hb
        have hxp : x.paragraph = i := by
          by_cases hs : (pyWords p).length < 50
          · rw [if_pos hs] at hx
            rcases List.mem_singleton.mp hx with rfl
            rfl
          · rw [if_neg hs] at hx
            exact sentLoop_paragraph doc page i (splitSent p).length
              (splitSent p) 1 [] 0 x hx
        have hyp : i + 1 ≤ y.paragraph :=
          paraLoop_paragraph_ge doc page rest (i + 1) y hy
        omega

/-- C6 counterexample: the one-space string is a non-empty input for which
the chunker returns the empty sequence (the claim asserts a non-empty
output for every non-empty input). -/
theorem chunk_text_counterexample :
    " ".data ≠ [] ∧ chunk_text " ".data "d".data 1 = [] :=
  ⟨by decide, by decide⟩

/-- C6 amended: for every input text containing at least one
non-whitespace character the chunker returns a non-empty sequence; chunk
order follows input order (paragraph indices are nondecreasing); and the
chunker is a pure function, so re-running it on identical input yields an
identical sequence.  (Whitespace-only input, although a non-empty string,
yields the empty sequence.) -/
theorem chunk_text_amended (t d : List Char) (pg : Nat)
    (h : ∃ c ∈ t, isWS c = false) :
    chunk_text t d pg ≠ [] ∧
    List.Sorted (· ≤ ·) ((chunk_text t d pg).map Chunk.paragraph) ∧
    ∀ t2, t2 = t → chunk_text t2 d pg = chunk_text t d pg := by
  have hct2 : chunk_text t d pg =
      paraLoop d pg 1 (((splitNN t).map trimText).filter
        (fun p => decide (p ≠ []))) := rfl
  refine ⟨?_, ?_, fun t2 ht => ht ▸ rfl⟩
  case refine_2 =>
    rw [hct2]
    exact paraLoop_sorted d pg _ 1
  obtain ⟨c, hct, hcw⟩ := h
  have hq : ∃ q ∈ splitNN t, c ∈ q := by
    rcases splitNNCore_mem t c hct hcw with h1 | ⟨p, hp, hcp⟩
    · exact ⟨(splitNNCore t).1, List.mem_cons_self _ _, h1⟩
    · exact ⟨p, List.mem_cons_of_mem _ hp, hcp⟩
  obtain ⟨q, hqmem, hcq⟩ := hq
  have htq : trimText q ≠ [] := trimText_ne_nil_of_mem hcq hcw
  have hmem : trimText q ∈ ((splitNN t).map trimText).filter
      (fun p => decide (p ≠ [])) := by
    rw [List.mem_filter]
    exact ⟨List.mem_map_of_mem trimText hqmem, by simpa using htq⟩
  rw [hct2]
  cases hps : ((splitNN t).map trimText).filter (fun p => decide (p ≠ [])) with
  | nil => rw [hps] at hmem; simp at hmem
  | cons p0 ps =>
      have hp0 : p0 ∈ ((splitNN t).map trimText).filter
          (fun p => decide (p ≠ [])) :=
        hps ▸ List.mem_cons_self _ _
      have hp0ne : p0 ≠ [] := by
        have := (List.mem_filter.mp hp0).2
        simpa using this
      obtain ⟨q0, hq0mem, hq0⟩ := List.mem_map.mp (List.mem_filter.mp hp0).1
      obtain ⟨cl, hcl, hclw⟩ := trimText_getLast_not_ws (hq0 ▸ hp0ne)
      rw [paraLoop]
      apply List.append_ne_nil_of_left_ne_nil
      by_cases hs : (pyWords p0).length < 50
      · rw [if_pos hs]; simp
      · rw [if_neg hs]
        have hcl2 : p0.getLast? = some cl := hq0 ▸ hcl
        obtain ⟨piece, hpl, hplc⟩ :=
          splitSentAux_getLast p0 false [] cl hcl2 hclw
        have hpiece_trim : trimText piece ≠ [] :=
          trimText_ne_nil_of_mem (List.mem_of_mem_getLast? hplc) hclw
        exact sentLoop_ne_nil d pg 1 (splitSent p0).length (splitSent p0) 1 [] 0
          piece hpl hpiece_trim (by omega)

/-- Witness for the amended C6 on the concrete input `hi`. -/
theorem chunk_text_amended_witness :
    (∃ c ∈ "hi".data, isWS c = false) ∧
    (chunk_text "hi".data "d".data 1 ≠ [] ∧
     List.Sorted (· ≤ ·) ((chunk_text "hi".data "d".data 1).map Chunk.paragraph) ∧
     ∀ t2, t2 = "hi".data →
       chunk_text t2 "d".data 1 = chunk_text "hi".data "d".data 1) :=
  ⟨by decide, chunk_text_amended "hi".data "d".data 1 (by decide)⟩

end DocChat
